import Mathlib

/-!
Verification of the slogbuffer repository (a buffering slog.Handler in Go).

The development shallowly embeds the two components of the source file
buffer.go:

* the generic ring buffer `buffer[T]` (type `Buffer` below) with its
  operations `Add`, `All`, `Values`, `Do`, `Clear`, `newBuffer`;
* the handler `BufferLogHandler` with its tree of derived instances sharing
  one buffer; the mutable heap of Go is made explicit as a `World` holding an
  arena of handler nodes, an arena of buffers, and the list of records that
  reached the attached real sink.

Go machine details that matter are modelled explicitly: slice length vs
capacity, the modulo indexing of the ring, the unreset start index in
`Clear`, nil-pointer receivers (`Option`), and Go panics as an abort channel.
Go nil slices and empty slices are both modelled as `[]`; the source
distinguishes them only in branches (`h.attrs != nil` vs `len(...) > 0`)
whose behaviour coincides under that identification for every state the
public API can produce.
-/

namespace Slogbuffer

/-- Attribute: a slog.Attr, modelled as an opaque key/value pair. -/
abbrev Attr := String × String

/-- The opaque payload of a slog.Record: its level plus an opaque message. -/
structure SRecord where
  level : Int
  msg : String
  deriving DecidableEq, Repr, Inhabited

/-- Source `record`: a slog.Record together with the attrs and groups of the
handler instance that buffered it. -/
structure BufRecord where
  record : SRecord
  attrs : List Attr
  groups : List String
  deriving DecidableEq, Repr, Inhabited

/-- Source `buffer[T]`: backing store (Go slice contents), its capacity,
the bound flag and the ring start index.  The Go slice is a list plus a
separate capacity, since `Add` and `All` branch on `cap(b.store)`. -/
structure Buffer (T : Type) where
  store : List T
  cap : Nat
  bound : Bool
  startIndex : Nat
  deriving DecidableEq, Repr

/-- Source `newBuffer`: positive maxElements gives a bound buffer of that
exact capacity; otherwise an unbound buffer with a small preallocation. -/
def newBuffer (T : Type) (maxElements : Int) : Buffer T :=
  if maxElements > 0 then
    { store := [], cap := maxElements.toNat, bound := true, startIndex := 0 }
  else
    { store := [], cap := 16, bound := false, startIndex := 0 }

/-- Source `buffer.Add`.  The append branch mirrors Go append: while there is
spare capacity the element lands at the end; a full unbound slice is grown
(the exact growth factor of the Go runtime is irrelevant, only that the new
capacity exceeds the new length).  The overwrite branch stores at the start
index and advances it modulo capacity. -/
def Buffer.Add (b : Buffer T) (element : T) : Buffer T :=
  if b.bound = false ∨ b.store.length < b.cap then
    { b with
      store := b.store ++ [element]
      cap := if b.store.length < b.cap then b.cap else max 1 (2 * b.cap) }
  else
    { b with
      store := b.store.set b.startIndex element
      startIndex := (b.startIndex + 1) % b.cap }

/-- Source `buffer.All`: yields `(i, store[(startIndex + i) % cap])` for
`i < len(store)`.  Out-of-range reads (impossible in reachable states) fall
back to `default`, standing in for the Go index panic. -/
def Buffer.All [Inhabited T] (b : Buffer T) : List (Nat × T) :=
  (List.range b.store.length).map
    (fun i => (i, b.store.getD ((b.startIndex + i) % b.cap) default))

/-- Source `buffer.Values`: the elements of `All`. -/
def Buffer.Values [Inhabited T] (b : Buffer T) : List T :=
  b.All.map Prod.snd

/-- Source `buffer.Clear`: empties the store and keeps the capacity, the
bound flag and (faithfully to the source, which does not reset it) the
start index. -/
def Buffer.Clear (b : Buffer T) : Buffer T :=
  { b with store := [] }

/-- Nil-receiver form of `Clear`: the source checks `b == nil` and returns. -/
def Buffer.ClearP (b : Option (Buffer T)) : Option (Buffer T) :=
  match b with
  | none => none
  | some b => some b.Clear

/-- Source `buffer.Len`. -/
def Buffer.Len (b : Buffer T) : Nat := b.store.length

/-- Folding `Add` over a list: the buffer after that sequence of Add calls. -/
def Buffer.addAll (b : Buffer T) (xs : List T) : Buffer T :=
  xs.foldl Buffer.Add b

end Slogbuffer

namespace Slogbuffer

/-! ### Ring buffer lemmas -/

theorem List.getD_eq_getElem' (l : List α) (d : α) (i : Nat) (h : i < l.length) :
    l.getD i d = l[i] := by
  simp [List.getD, List.getElem?_eq_getElem h]

theorem map_getD_range (l : List α) (d : α) :
    (List.range l.length).map (fun i => l.getD i d) = l := by
  apply List.ext_getElem
  · simp
  · intro i h1 h2
    simp only [List.getElem_map, List.getElem_range]
    exact List.getD_eq_getElem' l d i h2

/-- When the start index is zero and the store fits the capacity, iteration
returns the store itself. -/
theorem Buffer.Values_start_zero [Inhabited T] (b : Buffer T)
    (h0 : b.startIndex = 0) (hlen : b.store.length ≤ b.cap) :
    b.Values = b.store := by
  unfold Buffer.Values Buffer.All
  rw [List.map_map]
  have : ∀ i ∈ List.range b.store.length,
      (Prod.snd ∘ fun i => (i, b.store.getD ((b.startIndex + i) % b.cap) default)) i
        = b.store.getD i default := by
    intro i hi
    simp only [List.mem_range] at hi
    simp only [Function.comp_apply, h0, Nat.zero_add]
    rw [Nat.mod_eq_of_lt (lt_of_lt_of_le hi hlen)]
  rw [List.map_congr_left this, map_getD_range]

end Slogbuffer

namespace Slogbuffer

/-- Overwrite step of the ring: adding to a full bound buffer drops the
oldest element and appends the new one at the logical end. -/
theorem Buffer.Values_overwrite [Inhabited T] (b : Buffer T) (x : T)
    (hbound : b.bound = true) (hlen : b.store.length = b.cap)
    (hcap : 0 < b.cap) (hs : b.startIndex < b.cap) :
    (b.Add x).Values = b.Values.drop 1 ++ [x] := by
  obtain ⟨C', hC⟩ : ∃ C', b.cap = C' + 1 := ⟨b.cap - 1, by omega⟩
  have hadd : b.Add x =
      { b with store := b.store.set b.startIndex x,
               startIndex := (b.startIndex + 1) % b.cap } := by
    unfold Buffer.Add
    rw [if_neg]
    push_neg
    exact ⟨by simp [hbound], by omega⟩
  rw [hadd]
  unfold Buffer.Values Buffer.All
  simp only [List.map_map, List.length_set]
  set s := b.startIndex with hsdef
  rw [hlen, hC]
  -- the right side, first index split off
  nth_rewrite 2 [List.range_succ_eq_map]
  -- the left side, last index split off
  rw [List.range_succ, List.map_append, List.map_cons, List.map_nil]
  rw [List.map_cons, List.drop_succ_cons, List.drop_zero, List.map_map]
  congr 1
  · -- middle portion: entries shift by one
    apply List.map_congr_left
    intro i hi
    simp only [List.mem_range] at hi
    simp only [Function.comp_apply]
    have hcap' : s < C' + 1 := by omega
    have hidx : ((s + 1) % (C' + 1) + i) % (C' + 1) = (s + (Nat.succ i)) % (C' + 1) := by
      rw [Nat.mod_add_mod]
      congr 1
      omega
    rw [hidx]
    have hne : (s + Nat.succ i) % (C' + 1) ≠ s := by
      intro hcontra
      rcases Nat.lt_or_ge (s + Nat.succ i) (C' + 1) with hlt | hge
      · rw [Nat.mod_eq_of_lt hlt] at hcontra
        omega
      · have h2 : s + Nat.succ i < 2 * (C' + 1) := by omega
        have : (s + Nat.succ i) % (C' + 1) = s + Nat.succ i - (C' + 1) := by
          rw [Nat.mod_eq_sub_mod hge, Nat.mod_eq_of_lt (by omega)]
        rw [this] at hcontra
        omega
    simp only [List.getD, List.get?_eq_getElem?, List.getElem?_set_ne (Ne.symm hne)]
  · -- last entry: the freshly written element
    have hidx : ((s + 1) % (C' + 1) + C') % (C' + 1) = s := by
      rw [Nat.mod_add_mod]
      have : s + 1 + C' = s + (C' + 1) := by omega
      rw [this, Nat.add_mod_right, Nat.mod_eq_of_lt (by omega)]
    simp only [Function.comp_apply, hidx]
    have hsl : s < b.store.length := by omega
    simp [List.getD, List.get?_eq_getElem?, List.getElem?_set_self hsl]

end Slogbuffer

namespace Slogbuffer

/-- Invariant of a bound ring buffer under a sequence of Add calls, starting
from the state `newBuffer` produces for a positive capacity `C`: the store
holds `min N C` elements, the start index wraps as expected and iteration
yields the last `C` additions, oldest first. -/
theorem Buffer.addAll_bound_spec [Inhabited T] (C : Nat) (hC : 0 < C) (xs : List T) :
    ((Buffer.addAll ⟨[], C, true, 0⟩ xs).bound = true) ∧
    (Buffer.addAll ⟨[], C, true, 0⟩ xs).cap = C ∧
    (Buffer.addAll ⟨[], C, true, 0⟩ xs).store.length = min xs.length C ∧
    (Buffer.addAll ⟨[], C, true, 0⟩ xs).startIndex
      = (if xs.length ≤ C then 0 else xs.length % C) ∧
    (Buffer.addAll ⟨[], C, true, 0⟩ xs).Values = xs.drop (xs.length - C) := by
  induction xs using List.reverseRecOn with
  | nil =>
    refine ⟨rfl, rfl, by simp [Buffer.addAll], by simp [hC, Buffer.addAll], ?_⟩
    simp [Buffer.addAll, Buffer.Values, Buffer.All]
  | append_singleton ys y ih =>
    obtain ⟨ihb, ihc, ihl, ihs, ihv⟩ := ih
    have hfold : Buffer.addAll ⟨[], C, true, 0⟩ (ys ++ [y])
        = (Buffer.addAll ⟨[], C, true, 0⟩ ys).Add y := by
      simp [Buffer.addAll, List.foldl_append]
    set b := Buffer.addAll ⟨[], C, true, 0⟩ ys with hb
    rw [hfold]
    rcases Nat.lt_or_ge ys.length C with hlt | hge
    · -- still below capacity: plain append
      have hs0 : b.startIndex = 0 := by rw [ihs, if_pos (Nat.le_of_lt hlt)]
      have hlenlt : b.store.length < b.cap := by
        rw [ihl, ihc]; omega
      have hadd : b.Add y = { b with store := b.store ++ [y], cap := b.cap } := by
        unfold Buffer.Add
        rw [if_pos (Or.inr hlenlt), if_pos hlenlt]
      have hstore : b.store = ys := by
        have := Buffer.Values_start_zero b hs0 (Nat.le_of_lt hlenlt)
        rw [← this, ihv, Nat.sub_eq_zero_of_le (Nat.le_of_lt hlt), List.drop_zero]
      refine ⟨by rw [hadd]; exact ihb, by rw [hadd]; exact ihc, ?_, ?_, ?_⟩
      · rw [hadd]; simp [hstore, ihc]; omega
      · rw [hadd]; simp only [hs0]
        rw [if_pos (by simp; omega)]
      · rw [hadd]
        have hv : ({ b with store := b.store ++ [y], cap := b.cap } : Buffer T).Values
            = b.store ++ [y] := by
          apply Buffer.Values_start_zero
          · exact hs0
          · simp [ihc]; rw [hstore]; simpa using hlt
        rw [hv, hstore]
        have : (ys ++ [y]).length - C = 0 := by simp; omega
        rw [this, List.drop_zero]
    · -- at capacity: overwrite of the oldest element
      have hlen : b.store.length = b.cap := by rw [ihl, ihc]; omega
      have hcap : 0 < b.cap := by rw [ihc]; exact hC
      have hslt : b.startIndex < b.cap := by
        rw [ihs, ihc]
        split
        · exact hC
        · exact Nat.mod_lt _ hC
      have hv := Buffer.Values_overwrite b y ihb hlen hcap hslt
      have hadd : b.Add y =
          { b with store := b.store.set b.startIndex y,
                   startIndex := (b.startIndex + 1) % b.cap } := by
        unfold Buffer.Add
        rw [if_neg]
        push_neg
        exact ⟨by simp [ihb], by omega⟩
      refine ⟨by rw [hadd]; exact ihb, by rw [hadd]; exact ihc, ?_, ?_, ?_⟩
      · rw [hadd]; simp [hlen, ihc]; omega
      · rw [hadd]; simp only [ihs, ihc]
        have hlen' : (ys ++ [y]).length = ys.length + 1 := by simp
        rw [hlen']
        rw [if_neg (by omega : ¬ (ys.length + 1 ≤ C))]
        rcases Nat.eq_or_lt_of_le hge with heq | hlt2
        · -- ys.length = C exactly
          rw [if_pos (by omega)]
          rw [← heq, Nat.add_comm C 1, Nat.add_mod_right]
        · -- ys.length > C
          rw [if_neg (by omega)]
          exact Nat.mod_add_mod _ _ _
      · rw [hadd] at hv ⊢
        rw [hv, ihv, List.drop_drop]
        have h1 : ys.length - C + 1 = (ys ++ [y]).length - C := by simp; omega
        rw [h1]
        have h2 : (ys ++ [y]).length - C ≤ ys.length := by simp; omega
        rw [List.drop_append_of_le_length (by simp; omega)]

end Slogbuffer

namespace Slogbuffer

/-- The two-value iterator is the single-value iterator paired with the
running position. -/
theorem Buffer.All_eq_enum [Inhabited T] (b : Buffer T) :
    b.All = b.Values.enum := by
  unfold Buffer.Values
  rw [List.enum_eq_zip_range]
  unfold Buffer.All
  apply List.ext_getElem
  · simp
  · intro i h1 h2
    simp [List.getElem_zip]

/-- C1.  A bound buffer created with capacity C > 0 holds, after any
sequence of Add calls, exactly the last C added elements (all of them when
fewer than C were added), and All/Values iterate them oldest first.  Add is
a total function (it never fails). -/
theorem C1_bound_buffer_window [Inhabited T] (C : Int) (hC : 0 < C) (xs : List T) :
    ((newBuffer T C).addAll xs).Values
        = (if xs.length ≤ C.toNat then xs else xs.drop (xs.length - C.toNat))
      ∧ ((newBuffer T C).addAll xs).All
        = (((newBuffer T C).addAll xs).Values).enum := by
  have hnb : newBuffer T C = ⟨[], C.toNat, true, 0⟩ := by
    unfold newBuffer
    rw [if_pos hC]
  constructor
  · rw [hnb, (Buffer.addAll_bound_spec C.toNat (by omega) xs).2.2.2.2]
    split
    · next h => rw [Nat.sub_eq_zero_of_le h, List.drop_zero]
    · rfl
  · exact Buffer.All_eq_enum _

/-- Witness for C1: capacity 2, three additions, the oldest is dropped. -/
theorem C1_bound_buffer_window_witness :
    ((newBuffer Nat 2).addAll [10, 20, 30]).Values = [20, 30] := by
  have h := (C1_bound_buffer_window (T := Nat) 2 (by decide) [10, 20, 30]).1
  exact h.trans (by decide)

end Slogbuffer

namespace Slogbuffer

/-! ### Handler model

The real sink (an external slog.Handler) is modelled freely: a sink value is
the chain of WithGroup / WithAttrs derivations applied to the attached base
sink.  Its Handle outcome is a parameter (`fail`), as is its level gate
(`senabled`); the core passes both through opaquely. -/

/-- One derivation step applied to the real sink. -/
inductive SinkOp where
  | group (name : String)
  | attrs (attrs : List Attr)
  deriving DecidableEq, Repr

/-- A scoped view of the attached real sink: its derivation chain. -/
abbrev Sink := List SinkOp

/-- One `BufferLogHandler` value: level, optional real sink, optional shared
buffer (an index into the world buffer arena; `none` is a nil pointer),
local attrs and groups, and the optional parent (an arena index). -/
structure Node where
  level : Int
  real : Option Sink
  buf : Option Nat
  attrs : List Attr
  groups : List String
  parent : Option Nat
  deriving DecidableEq, Repr

/-- The Go heap made explicit: the arena of handler nodes, the arena of
buffers, and the trace of records the base real sink received (each with the
sink chain it was handled through). -/
structure World where
  nodes : List Node
  bufs : List (Buffer BufRecord)
  out : List (Sink × SRecord)
  deriving DecidableEq, Repr

/-- The empty heap. -/
def World.empty : World := ⟨[], [], []⟩

/-- Source `getRealHandler`: own real sink, else recursively the parent
chain.  Fuel-based recursion; parents of reachable nodes have strictly
smaller indices, so fuel `nodes.length` always suffices. -/
def getRealAux (w : World) : Nat → Nat → Option Sink
  | 0, _ => none
  | fuel + 1, i =>
    match w.nodes.get? i with
    | none => none
    | some n =>
      match n.real with
      | some s => some s
      | none =>
        match n.parent with
        | some p => getRealAux w fuel p
        | none => none

/-- Source `getRealHandler` on node `i`. -/
def getReal (w : World) (i : Nat) : Option Sink :=
  getRealAux w w.nodes.length i

/-- Source `NewBoundBufferLogHandler`: fresh node with a fresh buffer. -/
def NewBoundBufferLogHandler (w : World) (level : Int) (maxRecords : Int) :
    World × Nat :=
  (⟨w.nodes ++ [⟨level, none, some w.bufs.length, [], [], none⟩],
    w.bufs ++ [newBuffer BufRecord maxRecords], w.out⟩, w.nodes.length)

/-- Source `NewBufferLogHandler`: the unbound constructor. -/
def NewBufferLogHandler (w : World) (level : Int) : World × Nat :=
  NewBoundBufferLogHandler w level 0

/-- Source `BufferLogHandler.WithAttrs`.  In forwarding state: a fresh,
fully disconnected wrapper of the scoped sink.  In buffering state: a clone
(source `clone`, which copies level, real, shared buffer and deep-copies the
context slices; parent set to the receiver) with the attrs appended. -/
def WithAttrs (w : World) (i : Nat) (attrs : List Attr) : World × Nat :=
  match w.nodes.get? i with
  | none => (w, i)
  | some n =>
    match getReal w i with
    | some s =>
      (⟨w.nodes ++ [⟨0, some (s ++ [SinkOp.attrs attrs]), none, [], [], none⟩],
        w.bufs, w.out⟩, w.nodes.length)
    | none =>
      (⟨w.nodes ++ [⟨n.level, n.real, n.buf, n.attrs ++ attrs, n.groups, some i⟩],
        w.bufs, w.out⟩, w.nodes.length)

/-- Source `BufferLogHandler.WithGroup`: empty name returns the receiver
itself; otherwise analogous to WithAttrs with the group name appended. -/
def WithGroup (w : World) (i : Nat) (name : String) : World × Nat :=
  if name.length = 0 then (w, i)
  else
    match w.nodes.get? i with
    | none => (w, i)
    | some n =>
      match getReal w i with
      | some s =>
        (⟨w.nodes ++ [⟨0, some (s ++ [SinkOp.group name]), none, [], [], none⟩],
          w.bufs, w.out⟩, w.nodes.length)
      | none =>
        (⟨w.nodes ++ [⟨n.level, n.real, n.buf, n.attrs, n.groups ++ [name], some i⟩],
          w.bufs, w.out⟩, w.nodes.length)

/-- The context-scoped view of a sink built by Handle and SetRealHandler:
all group names first, then the attrs (if any; the source skips the
WithAttrs call for a nil/empty slice). -/
def recChain (s : Sink) (groups : List String) (attrs : List Attr) : Sink :=
  s ++ groups.map SinkOp.group ++ (if attrs.isEmpty then [] else [SinkOp.attrs attrs])

/-- Outcome of a Handle call: a returned error value (possibly nil), or the
nil-pointer panic that a buffering Handle on a node without a buffer would
hit in Go. -/
inductive HandleResult where
  | ok (e : Option Nat)
  | nilPanic
  deriving DecidableEq, Repr

/-- Source `BufferLogHandler.Handle`: forward through the scoped view when a
real sink is resolvable, otherwise append the record together with the local
context to the shared buffer.  `fail` gives the outcome of the real sink. -/
def Handle (fail : Sink → SRecord → Option Nat) (w : World) (i : Nat)
    (r : SRecord) : World × HandleResult :=
  match w.nodes.get? i with
  | none => (w, .ok none)
  | some n =>
    match getReal w i with
    | some s =>
      let c := recChain s n.groups n.attrs
      (⟨w.nodes, w.bufs, w.out ++ [(c, r)]⟩, .ok (fail c r))
    | none =>
      match n.buf with
      | none => (w, .nilPanic)
      | some bi =>
        match w.bufs.get? bi with
        | none => (w, .nilPanic)
        | some B =>
          (⟨w.nodes, w.bufs.set bi (B.Add ⟨r, n.attrs, n.groups⟩), w.out⟩, .ok none)

/-- Source `BufferLogHandler.Enabled`: below attachment the local threshold
gates; after attachment the real sink gate (`senabled`) governs. -/
def Enabled (senabled : Sink → Int → Bool) (w : World) (i : Nat)
    (level : Int) : Bool :=
  match w.nodes.get? i with
  | none => false
  | some n =>
    match getReal w i with
    | none => decide (level ≥ n.level)
    | some s => senabled s level

/-- The slog front end: a Logger calls Enabled and only on success Handle. -/
def LogRecord (fail : Sink → SRecord → Option Nat)
    (senabled : Sink → Int → Bool) (w : World) (i : Nat) (r : SRecord) :
    World × HandleResult :=
  if Enabled senabled w i r.level then Handle fail w i r else (w, .ok none)

/-- Source `BufferLogHandler.Discard`: clears the shared buffer; on a nil
buffer pointer Clear is a no-op. -/
def Discard (w : World) (i : Nat) : World :=
  match w.nodes.get? i with
  | none => w
  | some n =>
    match n.buf with
    | none => w
    | some bi =>
      match w.bufs.get? bi with
      | none => w
      | some B => ⟨w.nodes, w.bufs.set bi B.Clear, w.out⟩

/-- Source `BufferLogHandler.SetRealHandler`: drain every buffered record in
iteration order through a view of the new sink scoped by the record's
captured groups then attrs, aggregating every per-record failure (multierr);
then clear the buffer and publish the sink on this node.  Returns the list
of collected failures ([] plays the nil error). -/
def SetRealHandler (fail : Sink → SRecord → Option Nat) (w : World) (i : Nat)
    (s : Sink) : World × List Nat :=
  match w.nodes.get? i with
  | none => (w, [])
  | some n =>
    let recs : List BufRecord :=
      match n.buf with
      | none => []
      | some bi =>
        match w.bufs.get? bi with
        | none => []
        | some B => B.Values
    let bufs' :=
      match n.buf with
      | none => w.bufs
      | some bi =>
        match w.bufs.get? bi with
        | none => w.bufs
        | some B => w.bufs.set bi B.Clear
    (⟨w.nodes.set i { n with real := some s }, bufs',
      w.out ++ recs.map (fun rc => (recChain s rc.groups rc.attrs, rc.record))⟩,
     recs.filterMap (fun rc => fail (recChain s rc.groups rc.attrs) rc.record))

/-- The attrs of a sink chain with the group path under which each lands:
how the downstream sink is allowed to display them.  What the claim on
context composition constrains. -/
def qualifiedAux (path : List String) : Sink → List (List String × Attr)
  | [] => []
  | SinkOp.group g :: rest => qualifiedAux (path ++ [g]) rest
  | SinkOp.attrs as :: rest => as.map (fun a => (path, a)) ++ qualifiedAux path rest

/-- Qualified attrs of a chain, starting at the root path. -/
def qualifiedAttrs (c : Sink) : List (List String × Attr) :=
  qualifiedAux [] c

end Slogbuffer

namespace Slogbuffer

/-- A node whose own real field is set resolves to it immediately. -/
theorem getReal_of_real_some (w : World) (i : Nat) (n : Node) (s : Sink)
    (hn : w.nodes.get? i = some n) (hr : n.real = some s) :
    getReal w i = some s := by
  have hi : i < w.nodes.length := by
    have := List.get?_eq_some.mp hn
    exact this.1
  obtain ⟨m, hm⟩ : ∃ m, w.nodes.length = m + 1 := ⟨w.nodes.length - 1, by omega⟩
  unfold getReal
  rw [hm]
  simp only [getRealAux, hn, hr]

/-- If resolution fails, the node'\''s own real field is empty. -/
theorem real_none_of_getReal_none (w : World) (i : Nat) (n : Node)
    (hn : w.nodes.get? i = some n) (hg : getReal w i = none) :
    n.real = none := by
  cases hr : n.real with
  | none => rfl
  | some s =>
    rw [getReal_of_real_some w i n s hn hr] at hg
    cases hg

/-- C8.  WithGroup with an empty group name returns the receiver unchanged,
before the real-sink test and hence identically in the Buffering and the
Forwarding state. -/
theorem C8_withgroup_empty_identity (w : World) (i : Nat) :
    WithGroup w i "" = (w, i) := rfl

/-- C2 (code bug).  Through the derivation chain
root -> WithAttrs [a=1] -> WithGroup g -> WithAttrs [b=2], a buffered record
is replayed through the view sink.WithGroup(g).WithAttrs([a=1, b=2]): both
attributes land inside group g, although the slog.Handler contract (and the
claim) require a=1 to stay outside any group.  The code flattens the
context into all groups followed by all attrs, losing the interleaving. -/
theorem C2_interleaved_context_lost :
    (let root := NewBufferLogHandler World.empty (-10)
     let h1 := WithAttrs root.1 root.2 [("a", "1")]
     let h2 := WithGroup h1.1 h1.2 "g"
     let h3 := WithAttrs h2.1 h2.2 [("b", "2")]
     let w4 := (Handle (fun _ _ => none) h3.1 h3.2 ⟨0, "m"⟩).1
     let w5 := (SetRealHandler (fun _ _ => none) w4 root.2 []).1
     w5.out = [([SinkOp.group "g", SinkOp.attrs [("a", "1"), ("b", "2")]], ⟨0, "m"⟩)]
       ∧ (∀ o ∈ w5.out,
            qualifiedAttrs o.1 = [(["g"], ("a", "1")), (["g"], ("b", "2"))])
       ∧ (∀ o ∈ w5.out, (([], ("a", "1")) : List String × Attr) ∉ qualifiedAttrs o.1)) := by
  decide

/-- C3 (counterexample).  A handler with threshold 0 (INFO) is attached to a
real sink whose own gate accepts everything; a level -4 (DEBUG) record,
below the handler threshold, is then forwarded to the sink, contradicting
the claim that sub-threshold records are never forwarded and that gating is
identical before and after attachment. -/
theorem C3_sub_threshold_forwarded_after_attach :
    (let root := NewBufferLogHandler World.empty 0
     let w2 := (SetRealHandler (fun _ _ => none) root.1 root.2 []).1
     let res := LogRecord (fun _ _ => none) (fun _ _ => true) w2 root.2 ⟨-4, "dbg"⟩
     (-4 : Int) < 0 ∧ res.1.out = [([], ⟨-4, "dbg"⟩)]) := by
  decide

/-- C3 (amended).  Before attachment a record below the configured threshold
is neither buffered nor forwarded (the call is a no-op returning nil); after
attachment the gate is the real sink'\''s Enabled, so a record is dropped or
handled according to the sink'\''s gate, which coincides with the configured
threshold only if the sink gates the same way. -/
theorem C3_level_gate_amended (senabled : Sink → Int → Bool)
    (fail : Sink → SRecord → Option Nat) (w : World) (i : Nat) (n : Node)
    (r : SRecord) (hn : w.nodes.get? i = some n) :
    (getReal w i = none → r.level < n.level →
        LogRecord fail senabled w i r = (w, .ok none))
    ∧ (∀ s, getReal w i = some s → senabled s r.level = false →
        LogRecord fail senabled w i r = (w, .ok none))
    ∧ (∀ s, getReal w i = some s → senabled s r.level = true →
        LogRecord fail senabled w i r = Handle fail w i r) := by
  have hn2 : w.nodes[i]? = some n := by
    rw [← List.get?_eq_getElem?]
    exact hn
  refine ⟨?_, ?_, ?_⟩
  · intro hg hlt
    have hd : decide (r.level ≥ n.level) = false := by
      simp only [decide_eq_false_iff_not]
      omega
    simp only [ge_iff_le] at hd
    simp [LogRecord, Enabled, hn2, hg, hd]
  · intro s hg hf
    simp [LogRecord, Enabled, hn2, hg, hf]
  · intro s hg ht
    simp [LogRecord, Enabled, hn2, hg, ht]

/-- Witness for C3 (amended): concretely, before attachment the DEBUG record
is dropped without touching the world. -/
theorem C3_level_gate_amended_witness :
    LogRecord (fun _ _ => none) (fun _ _ => true)
        (NewBufferLogHandler World.empty 0).1 0 ⟨-4, "dbg"⟩
      = ((NewBufferLogHandler World.empty 0).1, .ok none) :=
  (C3_level_gate_amended (fun _ _ => true) (fun _ _ => none)
    (NewBufferLogHandler World.empty 0).1 0
    ⟨0, none, some 0, [], [], none⟩ ⟨-4, "dbg"⟩ (by decide)).1 (by decide) (by decide)

end Slogbuffer

namespace Slogbuffer

/-- C9.  Clear always succeeds: it resets the store to length zero and
preserves capacity and the bound/unbound mode; on a nil buffer it is a
no-op.  Discard is total: on a handler without a buffer (one derived after
attachment) it leaves the world untouched, and otherwise it just clears the
shared buffer. -/
theorem C9_clear_discard_safe (b : Buffer BufRecord) (w : World) (i : Nat) :
    b.Clear.store.length = 0 ∧ b.Clear.cap = b.cap ∧ b.Clear.bound = b.bound
    ∧ Buffer.ClearP (none : Option (Buffer BufRecord)) = none
    ∧ (∀ n, w.nodes.get? i = some n → n.buf = none → Discard w i = w)
    ∧ (∀ n bi B, w.nodes.get? i = some n → n.buf = some bi →
        w.bufs.get? bi = some B →
        Discard w i = ⟨w.nodes, w.bufs.set bi B.Clear, w.out⟩) := by
  refine ⟨rfl, rfl, rfl, rfl, ?_, ?_⟩
  · intro n hn hb
    unfold Discard
    rw [hn]
    simp only [hb]
  · intro n bi B hn hb hB
    unfold Discard
    rw [hn]
    simp only [hb, hB]

/-- Witness for C9: Discard on a handler derived after attachment (which
holds no buffer) returns normally and changes nothing. -/
theorem C9_clear_discard_safe_witness :
    (let root := NewBufferLogHandler World.empty 0
     let w2 := (SetRealHandler (fun _ _ => none) root.1 root.2 []).1
     let d := WithAttrs w2 root.2 [("k", "v")]
     Discard d.1 d.2 = d.1) := by
  have h := (C9_clear_discard_safe (newBuffer BufRecord 0)
    (WithAttrs
      (SetRealHandler (fun _ _ => none) (NewBufferLogHandler World.empty 0).1 0 []).1
      0 [("k", "v")]).1
    1).2.2.2.2.1 ⟨0, some [SinkOp.attrs [("k", "v")]], none, [], [], none⟩
    (by decide) (by decide)
  exact h

end Slogbuffer

namespace Slogbuffer

/-- Well-formed heap: parents point strictly backwards in the arena and
buffer indices are valid.  Every world reachable through the public API
satisfies this. -/
def WF (w : World) : Prop :=
  ∀ i n, w.nodes.get? i = some n →
    (∀ p, n.parent = some p → p < i) ∧
    (∀ bi, n.buf = some bi → bi < w.bufs.length)

/-- Decidable check for WF, for concrete worlds. -/
def WFb (w : World) : Bool :=
  (List.range w.nodes.length).all fun i =>
    match w.nodes.get? i with
    | none => true
    | some n =>
      n.parent.all (fun p => decide (p < i)) &&
        n.buf.all (fun bi => decide (bi < w.bufs.length))

theorem WF_of_WFb (w : World) (h : WFb w = true) : WF w := by
  intro i n hn
  have hi : i < w.nodes.length := (List.get?_eq_some.mp hn).1
  have h2 := List.all_eq_true.mp h i (List.mem_range.mpr hi)
  simp only [hn, Bool.and_eq_true] at h2
  constructor
  · intro p hp
    have h3 := h2.1
    rw [hp] at h3
    simpa using h3
  · intro bi hb
    have h3 := h2.2
    rw [hb] at h3
    simpa using h3

/-- Resolution is insensitive to everything but the node arena. -/
theorem getRealAux_nodes_eq (w w' : World) (h : w.nodes = w'.nodes) :
    ∀ fuel i, getRealAux w fuel i = getRealAux w' fuel i := by
  intro fuel
  induction fuel with
  | zero => intro i; rfl
  | succ f ih =>
    intro i
    simp only [getRealAux, h]
    cases hn : w'.nodes.get? i with
    | none => simp [hn]
    | some n =>
      cases hr : n.real with
      | some s => simp [hn, hr]
      | none =>
        cases hp : n.parent with
        | none => simp [hn, hr, hp]
        | some p => simp [hn, hr, hp, ih p]

/-- In a well-formed world, any fuel of at least i + 1 resolves node i the
same way (parent chains descend). -/
theorem getRealAux_fuel (w : World) (hWF : WF w) :
    ∀ i fuel, i + 1 ≤ fuel → getRealAux w fuel i = getRealAux w (i + 1) i := by
  intro i
  induction i using Nat.strong_induction_on with
  | _ i ih =>
    intro fuel hfuel
    obtain ⟨f, rfl⟩ : ∃ f, fuel = f + 1 := ⟨fuel - 1, by omega⟩
    cases hn : w.nodes[i]? with
    | none => simp [getRealAux, hn]
    | some n =>
      have hn2 : w.nodes.get? i = some n := by rw [List.get?_eq_getElem?]; exact hn
      cases hr : n.real with
      | some s => simp [getRealAux, hn, hr]
      | none =>
        cases hp : n.parent with
        | none => simp [getRealAux, hn, hr, hp]
        | some p =>
          have hpi : p < i := (hWF i n hn2).1 p hp
          have h1 : getRealAux w (f + 1) i = getRealAux w f p := by
            simp [getRealAux, hn, hr, hp]
          have h2 : getRealAux w (i + 1) i = getRealAux w i p := by
            simp [getRealAux, hn, hr, hp]
          rw [h1, h2, ih p hpi f (by omega), ih p hpi i (by omega)]

/-- Appending a node does not change how the existing nodes resolve. -/
theorem getRealAux_append (w : World) (hWF : WF w) (n0 : Node) (w' : World)
    (hw' : w'.nodes = w.nodes ++ [n0]) :
    ∀ fuel i, i < w.nodes.length → getRealAux w' fuel i = getRealAux w fuel i := by
  intro fuel
  induction fuel with
  | zero => intro i _; rfl
  | succ f ih =>
    intro i hi
    have hget : w'.nodes[i]? = w.nodes[i]? := by
      rw [hw', ← List.get?_eq_getElem?, ← List.get?_eq_getElem?]
      exact List.get?_append hi
    cases hn : w.nodes[i]? with
    | none => simp [getRealAux, hget, hn]
    | some n =>
      have hn2 : w.nodes.get? i = some n := by rw [List.get?_eq_getElem?]; exact hn
      cases hr : n.real with
      | some s => simp [getRealAux, hget, hn, hr]
      | none =>
        cases hp : n.parent with
        | none => simp [getRealAux, hget, hn, hr, hp]
        | some p =>
          have hpi : p < i := (hWF i n hn2).1 p hp
          have h1 : getRealAux w' (f + 1) i = getRealAux w' f p := by
            simp [getRealAux, hget, hn, hr, hp]
          have h2 : getRealAux w (f + 1) i = getRealAux w f p := by
            simp [getRealAux, hn, hr, hp]
          rw [h1, h2, ih p (by omega)]

/-- Resolution of an existing node is unchanged by appending a node. -/
theorem getReal_append (w : World) (hWF : WF w) (n0 : Node) (w' : World)
    (hw' : w'.nodes = w.nodes ++ [n0]) (i : Nat) (hi : i < w.nodes.length) :
    getReal w' i = getReal w i := by
  have hlen' : w'.nodes.length = w.nodes.length + 1 := by rw [hw']; simp
  unfold getReal
  rw [hlen', getRealAux_append w hWF n0 w' hw' _ i hi,
    getRealAux_fuel w hWF i _ (by omega),
    ← getRealAux_fuel w hWF i w.nodes.length (by omega)]

/-- A buffering node resolves through its parent. -/
theorem getReal_parent_step (w : World) (hWF : WF w) (i : Nat) (n : Node)
    (p : Nat) (hn : w.nodes.get? i = some n) (hr : n.real = none)
    (hp : n.parent = some p) : getReal w i = getReal w p := by
  have hi : i < w.nodes.length := (List.get?_eq_some.mp hn).1
  have hpi : p < i := (hWF i n hn).1 p hp
  obtain ⟨m, hm⟩ : ∃ m, w.nodes.length = m + 1 := ⟨w.nodes.length - 1, by omega⟩
  have hn3 : w.nodes[i]? = some n := by rw [← List.get?_eq_getElem?]; exact hn
  unfold getReal
  rw [hm]
  have h1 : getRealAux w (m + 1) i = getRealAux w m p := by
    simp [getRealAux, hn3, hr, hp]
  rw [h1, getRealAux_fuel w hWF p m (by omega),
    ← getRealAux_fuel w hWF p (m + 1) (by omega)]

/-- Appending preserves well-formedness when the new node is itself sane. -/
theorem WF_append (w : World) (hWF : WF w) (n0 : Node) (w' : World)
    (hw' : w'.nodes = w.nodes ++ [n0]) (hbufs : w.bufs.length ≤ w'.bufs.length)
    (hpar : ∀ p, n0.parent = some p → p < w.nodes.length)
    (hbuf : ∀ bi, n0.buf = some bi → bi < w'.bufs.length) : WF w' := by
  intro j n hj
  rw [hw'] at hj
  rcases Nat.lt_trichotomy j w.nodes.length with hlt | heq | hgt
  · rw [List.get?_append hlt] at hj
    obtain ⟨h1, h2⟩ := hWF j n hj
    exact ⟨h1, fun bi hb => lt_of_lt_of_le (h2 bi hb) hbufs⟩
  · subst heq
    rw [List.get?_append_right (le_refl _)] at hj
    simp at hj
    subst hj
    exact ⟨fun p hp => hpar p hp, fun bi hb => hbuf bi hb⟩
  · rw [List.get?_eq_none.mpr (by simp; omega)] at hj
    cases hj

end Slogbuffer

namespace Slogbuffer

/-- A successful resolution implies the node exists. -/
theorem exists_node_of_getReal_some (w : World) (i : Nat) (s : Sink)
    (h : getReal w i = some s) : ∃ n, w.nodes.get? i = some n := by
  unfold getReal at h
  cases hl : w.nodes.length with
  | zero => rw [hl] at h; cases h
  | succ m =>
    rw [hl] at h
    unfold getRealAux at h
    cases hn : w.nodes.get? i with
    | none => rw [hn] at h; cases h
    | some n => exact ⟨n, rfl⟩

/-- Setting another node does not disturb a node with its own real sink. -/
theorem getReal_nodes_set_ne (w w' : World) (k : Nat) (m : Node)
    (hw : w'.nodes = w.nodes.set k m) (j : Nat) (hjk : j ≠ k) (n : Node)
    (s : Sink) (hj : w.nodes.get? j = some n) (hr : n.real = some s) :
    getReal w' j = some s := by
  apply getReal_of_real_some w' j n s ?_ hr
  rw [hw, List.get?_eq_getElem?, List.getElem?_set_ne (fun he => hjk he.symm),
    ← List.get?_eq_getElem?]
  exact hj

/-- Behaviour of a fully disconnected forwarding wrapper node: it resolves
to its own scoped sink, Handle forwards directly without touching any
buffer, and publishing a sink on any other node never changes what it
resolves to. -/
theorem fwdnode_spec (w' : World) (j : Nat) (s' : Sink)
    (fail : Sink → SRecord → Option Nat) (r : SRecord)
    (hj : w'.nodes.get? j = some ⟨0, some s', none, [], [], none⟩) :
    getReal w' j = some s'
    ∧ Handle fail w' j r
        = (⟨w'.nodes, w'.bufs, w'.out ++ [(s', r)]⟩, .ok (fail s' r))
    ∧ (∀ k t, k ≠ j →
        getReal (SetRealHandler fail w' k t).1 j = some s') := by
  have hreal : getReal w' j = some s' :=
    getReal_of_real_some w' j ⟨0, some s', none, [], [], none⟩ s' hj rfl
  refine ⟨hreal, ?_, ?_⟩
  · unfold Handle
    rw [hj, hreal]
    simp [recChain]
  · intro k t hk
    cases hgk : w'.nodes.get? k with
    | none =>
      have : SetRealHandler fail w' k t = (w', []) := by
        unfold SetRealHandler
        rw [hgk]
      rw [this]
      exact hreal
    | some nk =>
      have hnodes : (SetRealHandler fail w' k t).1.nodes
          = w'.nodes.set k { nk with real := some t } := by
        unfold SetRealHandler
        rw [hgk]
      exact getReal_nodes_set_ne w' _ k { nk with real := some t } hnodes j
        (fun he => hk he.symm) ⟨0, some s', none, [], [], none⟩ s' hj rfl

/-- The index just appended is found. -/
theorem get?_append_last (l : List α) (a : α) : (l ++ [a]).get? l.length = some a := by
  rw [List.get?_append_right (le_refl _)]
  simp

/-- C7 (amended).  A handler derived by WithAttrs, or by WithGroup with a
NON-EMPTY name, from a handler that already resolves a real sink, is a fresh
node with no buffer and no parent; its Handle calls forward directly to its
scoped sink without touching any buffer, and attaching a real sink on any
other node later never changes the sink it resolves.  (The original claim
fails for WithGroup with an empty name, which returns the receiver itself;
see the counterexample.) -/
theorem C7_forwarding_derivation_disconnected (w : World) (i : Nat) (s : Sink)
    (hfwd : getReal w i = some s) (attrs : List Attr) (g : String)
    (hg : g.length ≠ 0) (fail : Sink → SRecord → Option Nat) (r : SRecord) :
    ((WithAttrs w i attrs).1.nodes.get? (WithAttrs w i attrs).2
        = some ⟨0, some (s ++ [SinkOp.attrs attrs]), none, [], [], none⟩)
    ∧ (WithAttrs w i attrs).1.bufs = w.bufs
    ∧ getReal (WithAttrs w i attrs).1 (WithAttrs w i attrs).2
        = some (s ++ [SinkOp.attrs attrs])
    ∧ Handle fail (WithAttrs w i attrs).1 (WithAttrs w i attrs).2 r
        = (⟨(WithAttrs w i attrs).1.nodes, (WithAttrs w i attrs).1.bufs,
            (WithAttrs w i attrs).1.out ++ [(s ++ [SinkOp.attrs attrs], r)]⟩,
           .ok (fail (s ++ [SinkOp.attrs attrs]) r))
    ∧ (∀ k t, k ≠ (WithAttrs w i attrs).2 →
        getReal (SetRealHandler fail (WithAttrs w i attrs).1 k t).1
            (WithAttrs w i attrs).2 = some (s ++ [SinkOp.attrs attrs]))
    ∧ ((WithGroup w i g).1.nodes.get? (WithGroup w i g).2
        = some ⟨0, some (s ++ [SinkOp.group g]), none, [], [], none⟩)
    ∧ (WithGroup w i g).1.bufs = w.bufs
    ∧ getReal (WithGroup w i g).1 (WithGroup w i g).2
        = some (s ++ [SinkOp.group g])
    ∧ Handle fail (WithGroup w i g).1 (WithGroup w i g).2 r
        = (⟨(WithGroup w i g).1.nodes, (WithGroup w i g).1.bufs,
            (WithGroup w i g).1.out ++ [(s ++ [SinkOp.group g], r)]⟩,
           .ok (fail (s ++ [SinkOp.group g]) r))
    ∧ (∀ k t, k ≠ (WithGroup w i g).2 →
        getReal (SetRealHandler fail (WithGroup w i g).1 k t).1
            (WithGroup w i g).2 = some (s ++ [SinkOp.group g])) := by
  obtain ⟨n, hn⟩ := exists_node_of_getReal_some w i s hfwd
  have hwa : WithAttrs w i attrs
      = (⟨w.nodes ++ [⟨0, some (s ++ [SinkOp.attrs attrs]), none, [], [], none⟩],
          w.bufs, w.out⟩, w.nodes.length) := by
    unfold WithAttrs
    rw [hn, hfwd]
  have hwg : WithGroup w i g
      = (⟨w.nodes ++ [⟨0, some (s ++ [SinkOp.group g]), none, [], [], none⟩],
          w.bufs, w.out⟩, w.nodes.length) := by
    unfold WithGroup
    rw [if_neg hg, hn, hfwd]
  have hja : (WithAttrs w i attrs).1.nodes.get? (WithAttrs w i attrs).2
      = some ⟨0, some (s ++ [SinkOp.attrs attrs]), none, [], [], none⟩ := by
    rw [hwa]
    exact get?_append_last _ _
  have hjg : (WithGroup w i g).1.nodes.get? (WithGroup w i g).2
      = some ⟨0, some (s ++ [SinkOp.group g]), none, [], [], none⟩ := by
    rw [hwg]
    exact get?_append_last _ _
  obtain ⟨ha1, ha2, ha3⟩ := fwdnode_spec (WithAttrs w i attrs).1
    (WithAttrs w i attrs).2 (s ++ [SinkOp.attrs attrs]) fail r hja
  obtain ⟨hg1, hg2, hg3⟩ := fwdnode_spec (WithGroup w i g).1
    (WithGroup w i g).2 (s ++ [SinkOp.group g]) fail r hjg
  exact ⟨hja, by rw [hwa], ha1, ha2, ha3, hjg, by rw [hwg], hg1, hg2, hg3⟩

/-- Witness for C7 (amended): deriving from an attached root produces a
buffer-less, parent-less wrapper whose resolution survives a re-attachment
at the root. -/
theorem C7_forwarding_derivation_disconnected_witness :
    (let root := NewBufferLogHandler World.empty 0
     let w2 := (SetRealHandler (fun _ _ => none) root.1 root.2 [SinkOp.group "s1"]).1
     let d := WithAttrs w2 root.2 [("k", "v")]
     d.1.nodes.get? d.2
        = some ⟨0, some [SinkOp.group "s1", SinkOp.attrs [("k", "v")]], none, [], [], none⟩
      ∧ getReal (SetRealHandler (fun _ _ => none) d.1 0 [SinkOp.group "s2"]).1 d.2
        = some [SinkOp.group "s1", SinkOp.attrs [("k", "v")]]) := by
  have h := C7_forwarding_derivation_disconnected
    (SetRealHandler (fun _ _ => none) (NewBufferLogHandler World.empty 0).1 0
      [SinkOp.group "s1"]).1
    0 [SinkOp.group "s1"] (by decide) [("k", "v")] "x" (by decide)
    (fun _ _ => none) ⟨0, "m"⟩
  exact ⟨h.1, h.2.2.2.2.1 0 [SinkOp.group "s2"] (by decide)⟩

/-- C7 (counterexample).  WithGroup with an empty name, called on a
buffering-era child after the root has been attached (so a real sink is
reachable), returns the child itself: a handler that still holds the shared
buffer and its parent pointer, and that observes a different real sink when
one is attached at the root later, contradicting the claim for instances
returned by WithGroup in the Forwarding state. -/
theorem C7_empty_group_still_connected :
    (let root := NewBufferLogHandler World.empty 0
     let c := WithGroup root.1 root.2 "g"
     let w2 := (SetRealHandler (fun _ _ => none) c.1 root.2 [SinkOp.group "s1"]).1
     let j := WithGroup w2 c.2 ""
     getReal w2 c.2 = some [SinkOp.group "s1"]
      ∧ j = (w2, c.2)
      ∧ j.1.nodes.get? j.2 = some ⟨0, none, some 0, [], ["g"], some 0⟩
      ∧ getReal (SetRealHandler (fun _ _ => none) j.1 root.2 [SinkOp.group "s2"]).1 j.2
          = some [SinkOp.group "s2"]) := by
  decide

end Slogbuffer

namespace Slogbuffer

/-- Derivation via WithAttrs never modifies any buffer. -/
theorem WithAttrs_bufs_frame (w : World) (i : Nat) (as : List Attr) :
    (WithAttrs w i as).1.bufs = w.bufs := by
  unfold WithAttrs
  cases hn : w.nodes.get? i with
  | none => rfl
  | some n =>
    cases hg : getReal w i with
    | none => rfl
    | some s => rfl

/-- Derivation via WithGroup never modifies any buffer. -/
theorem WithGroup_bufs_frame (w : World) (i : Nat) (g : String) :
    (WithGroup w i g).1.bufs = w.bufs := by
  unfold WithGroup
  split
  · rfl
  · cases hn : w.nodes.get? i with
    | none => rfl
    | some n =>
      cases hg2 : getReal w i with
      | none => rfl
      | some s => rfl

/-- One context-derivation step on a handler: extra attributes or an extra
group name; exactly the two ways a sibling handler can be derived. -/
inductive CtxStep where
  | attrs (attrs : List Attr)
  | group (name : String)

/-- The derivation a step performs (the source WithAttrs / WithGroup). -/
def derive (w : World) (i : Nat) : CtxStep → World × Nat
  | .attrs as => WithAttrs w i as
  | .group g => WithGroup w i g

/-- A step derives a fresh sibling: for a group step the name is non-empty
(an empty name is the identity, see C8, and creates no sibling). -/
def CtxStepOK : CtxStep → Prop
  | .attrs _ => True
  | .group g => g.length ≠ 0

/-- The node a buffering-state derivation step creates from parent node
`n0` at index `i0`: the parent context extended by the step itself only. -/
def childCtx (n0 : Node) (i0 : Nat) : CtxStep → Node
  | .attrs as => ⟨n0.level, n0.real, n0.buf, n0.attrs ++ as, n0.groups, some i0⟩
  | .group g => ⟨n0.level, n0.real, n0.buf, n0.attrs, n0.groups ++ [g], some i0⟩

theorem childCtx_real (n0 : Node) (i0 : Nat) (d : CtxStep) :
    (childCtx n0 i0 d).real = n0.real := by
  cases d <;> rfl

theorem childCtx_buf (n0 : Node) (i0 : Nat) (d : CtxStep) :
    (childCtx n0 i0 d).buf = n0.buf := by
  cases d <;> rfl

theorem childCtx_parent (n0 : Node) (i0 : Nat) (d : CtxStep) :
    (childCtx n0 i0 d).parent = some i0 := by
  cases d <;> rfl

/-- No derivation step, of either kind, modifies any buffer. -/
theorem derive_bufs_frame (w : World) (i : Nat) (d : CtxStep) :
    (derive w i d).1.bufs = w.bufs := by
  cases d with
  | attrs as => exact WithAttrs_bufs_frame w i as
  | group g => exact WithGroup_bufs_frame w i g

/-- In buffering state an effective derivation step appends exactly the
child node and returns its index. -/
theorem derive_buffering (w : World) (i : Nat) (n0 : Node) (d : CtxStep)
    (hok : CtxStepOK d) (hn : w.nodes.get? i = some n0)
    (hg : getReal w i = none) :
    derive w i d
      = (⟨w.nodes ++ [childCtx n0 i d], w.bufs, w.out⟩, w.nodes.length) := by
  cases d with
  | attrs as =>
    show WithAttrs w i as = _
    unfold WithAttrs
    rw [hn, hg]
    rfl
  | group g =>
    show WithGroup w i g = _
    unfold WithGroup
    rw [if_neg hok, hn, hg]
    rfl

/-- C6.  Sibling isolation and stored-record immutability, for every pair of
sibling derivations of either kind (attributes or group): derivation steps
never alter any buffer, so the captured context of an already-stored record
is final; each of two siblings derived from a common buffering parent
carries exactly the parent context extended by its own step, with no trace
of the other sibling, and a record handled through either sibling or
through the parent is buffered with exactly that handler captured
context. -/
theorem C6_sibling_isolation (w : World) (p : Nat) (np : Node)
    (d1 d2 : CtxStep) (r : SRecord) (fail : Sink → SRecord → Option Nat)
    (hWF : WF w) (hp : w.nodes.get? p = some np) (hbuff : getReal w p = none)
    (hd1 : CtxStepOK d1) (hd2 : CtxStepOK d2) :
    (∀ w0 i0 d0, (derive w0 i0 d0).1.bufs = (w0 : World).bufs)
    ∧ (derive (derive w p d1).1 p d2).1.bufs = w.bufs
    ∧ ((derive (derive w p d1).1 p d2).1.nodes.get?
          (derive (derive w p d1).1 p d2).2 = some (childCtx np p d2))
    ∧ ((derive (derive w p d1).1 p d2).1.nodes.get? (derive w p d1).2
        = some (childCtx np p d1))
    ∧ ((derive (derive w p d1).1 p d2).1.nodes.get? p = some np)
    ∧ (∀ bi B, np.buf = some bi → w.bufs.get? bi = some B →
        (Handle fail (derive (derive w p d1).1 p d2).1
            (derive (derive w p d1).1 p d2).2 r).1.bufs
          = w.bufs.set bi
              (B.Add ⟨r, (childCtx np p d2).attrs, (childCtx np p d2).groups⟩)
        ∧ (Handle fail (derive (derive w p d1).1 p d2).1 (derive w p d1).2 r).1.bufs
          = w.bufs.set bi
              (B.Add ⟨r, (childCtx np p d1).attrs, (childCtx np p d1).groups⟩)
        ∧ (Handle fail (derive (derive w p d1).1 p d2).1 p r).1.bufs
          = w.bufs.set bi (B.Add ⟨r, np.attrs, np.groups⟩)) := by
  have hreal : np.real = none := real_none_of_getReal_none w p np hp hbuff
  have hplen : p < w.nodes.length := (List.get?_eq_some.mp hp).1
  -- the first derivation
  have hw1 := derive_buffering w p np d1 hd1 hp hbuff
  have hWF1 : WF (derive w p d1).1 := by
    apply WF_append w hWF _ _ (by rw [hw1]) (by rw [hw1])
    · intro q hq
      rw [childCtx_parent] at hq
      simp at hq
      omega
    · intro bi hb
      rw [childCtx_buf] at hb
      rw [hw1]
      exact (hWF p np hp).2 bi hb
  have hp1 : (derive w p d1).1.nodes.get? p = some np := by
    rw [hw1, List.get?_append hplen]
    exact hp
  have hg1 : getReal (derive w p d1).1 p = none := by
    rw [getReal_append w hWF _ _ (by rw [hw1]) p hplen]
    exact hbuff
  have hb1 : (derive w p d1).1.bufs = w.bufs := derive_bufs_frame w p d1
  have hplen1 : p < (derive w p d1).1.nodes.length := by
    rw [hw1]
    simp
    omega
  have hs1id : (derive w p d1).2 = w.nodes.length := by rw [hw1]
  have hs1lt : (derive w p d1).2 < (derive w p d1).1.nodes.length := by
    rw [hs1id, hw1]
    simp
  have hs1_1 : (derive w p d1).1.nodes.get? (derive w p d1).2
      = some (childCtx np p d1) := by
    rw [hw1]
    exact get?_append_last _ _
  -- the second derivation
  have hw2 := derive_buffering (derive w p d1).1 p np d2 hd2 hp1 hg1
  have hWF2 : WF (derive (derive w p d1).1 p d2).1 := by
    apply WF_append (derive w p d1).1 hWF1 _ _ (by rw [hw2]) (by rw [hw2])
    · intro q hq
      rw [childCtx_parent] at hq
      simp at hq
      omega
    · intro bi hb
      rw [childCtx_buf] at hb
      rw [hw2, hb1]
      exact (hWF p np hp).2 bi hb
  have hs2 : (derive (derive w p d1).1 p d2).1.nodes.get?
      (derive (derive w p d1).1 p d2).2 = some (childCtx np p d2) := by
    rw [hw2]
    exact get?_append_last _ _
  have hp2 : (derive (derive w p d1).1 p d2).1.nodes.get? p = some np := by
    rw [hw2, List.get?_append hplen1]
    exact hp1
  have hs1_2 : (derive (derive w p d1).1 p d2).1.nodes.get? (derive w p d1).2
      = some (childCtx np p d1) := by
    rw [hw2, List.get?_append hs1lt]
    exact hs1_1
  have hgp2 : getReal (derive (derive w p d1).1 p d2).1 p = none := by
    rw [getReal_append (derive w p d1).1 hWF1 _ _ (by rw [hw2]) p hplen1]
    exact hg1
  have hgs2 : getReal (derive (derive w p d1).1 p d2).1
      (derive (derive w p d1).1 p d2).2 = none := by
    rw [getReal_parent_step (derive (derive w p d1).1 p d2).1 hWF2 _
      (childCtx np p d2) p hs2 (by rw [childCtx_real]; exact hreal)
      (childCtx_parent np p d2)]
    exact hgp2
  have hgs1_2 : getReal (derive (derive w p d1).1 p d2).1 (derive w p d1).2
      = none := by
    rw [getReal_parent_step (derive (derive w p d1).1 p d2).1 hWF2 _
      (childCtx np p d1) p hs1_2 (by rw [childCtx_real]; exact hreal)
      (childCtx_parent np p d1)]
    exact hgp2
  have hb2 : (derive (derive w p d1).1 p d2).1.bufs = w.bufs := by
    rw [derive_bufs_frame, hb1]
  refine ⟨fun w0 i0 d0 => derive_bufs_frame w0 i0 d0, hb2, hs2, hs1_2, hp2, ?_⟩
  intro bi B hbi hB
  have hB2 : (derive (derive w p d1).1 p d2).1.bufs.get? bi = some B := by
    rw [hb2]
    exact hB
  refine ⟨?_, ?_, ?_⟩
  · unfold Handle
    rw [hs2, hgs2]
    simp only [childCtx_buf, hbi, hB2, hb2, hB]
  · unfold Handle
    rw [hs1_2, hgs1_2]
    simp only [childCtx_buf, hbi, hB2, hb2, hB]
  · unfold Handle
    rw [hp2, hgp2]
    simp only [hbi, hB2, hb2, hB]

/-- Witness for C6: a parent with an attr-derived sibling and a
group-derived sibling; the record logged through the group-sibling is
buffered with the parent context plus that group only, with no trace of the
attr-sibling. -/
theorem C6_sibling_isolation_witness :
    (let root := NewBufferLogHandler World.empty (-10)
     let w1 := (derive root.1 root.2 (CtxStep.attrs [("one", "1")])).1
     let d2 := derive w1 root.2 (CtxStep.group "g")
     (Handle (fun _ _ => none) d2.1 d2.2 ⟨0, "m"⟩).1.bufs
        = [(newBuffer BufRecord 0).Add ⟨⟨0, "m"⟩, [], ["g"]⟩]) := by
  have h := (C6_sibling_isolation (NewBufferLogHandler World.empty (-10)).1 0
    ⟨-10, none, some 0, [], [], none⟩ (CtxStep.attrs [("one", "1")])
    (CtxStep.group "g") ⟨0, "m"⟩ (fun _ _ => none)
    (WF_of_WFb _ (by decide)) (by decide) (by decide) trivial
    (show "g".length ≠ 0 by decide)).2.2.2.2.2 0 (newBuffer BufRecord 0) rfl
    (by decide)
  exact h.1.trans (by decide)

end Slogbuffer

namespace Slogbuffer

/-- One public-API call, by target arena index. -/
inductive Op where
  | newBound (level : Int) (maxRecords : Int)
  | newUnbound (level : Int)
  | withAttrs (i : Nat) (attrs : List Attr)
  | withGroup (i : Nat) (name : String)
  | handle (i : Nat) (r : SRecord)
  | logRecord (i : Nat) (r : SRecord)
  | setReal (i : Nat) (s : Sink)
  | discard (i : Nat)

/-- Effect of one public-API call on the heap. -/
def stepOp (fail : Sink → SRecord → Option Nat) (senabled : Sink → Int → Bool)
    (w : World) : Op → World
  | .newBound lv m => (NewBoundBufferLogHandler w lv m).1
  | .newUnbound lv => (NewBufferLogHandler w lv).1
  | .withAttrs i as => (WithAttrs w i as).1
  | .withGroup i g => (WithGroup w i g).1
  | .handle i r => (Handle fail w i r).1
  | .logRecord i r => (LogRecord fail senabled w i r).1
  | .setReal i s => (SetRealHandler fail w i s).1
  | .discard i => Discard w i

/-- The heap after a sequence of public-API calls from the empty heap. -/
def run (fail : Sink → SRecord → Option Nat) (senabled : Sink → Int → Bool)
    (ops : List Op) : World :=
  ops.foldl (stepOp fail senabled) World.empty

/-- Safety invariant: every node holds a valid buffer index or its own real
sink. -/
def SafeInv (w : World) : Prop :=
  ∀ i n, w.nodes.get? i = some n →
    (∃ bi, n.buf = some bi ∧ bi < w.bufs.length) ∨ n.real ≠ none

theorem SafeInv_append (w : World) (hI : SafeInv w) (w' : World) (n0 : Node)
    (hw : w'.nodes = w.nodes ++ [n0]) (hb : w.bufs.length ≤ w'.bufs.length)
    (h0 : (∃ bi, n0.buf = some bi ∧ bi < w'.bufs.length) ∨ n0.real ≠ none) :
    SafeInv w' := by
  intro j n hj
  rw [hw] at hj
  rcases Nat.lt_trichotomy j w.nodes.length with hlt | heq | hgt
  · rw [List.get?_append hlt] at hj
    rcases hI j n hj with ⟨bi, h1, h2⟩ | h1
    · exact Or.inl ⟨bi, h1, lt_of_lt_of_le h2 hb⟩
    · exact Or.inr h1
  · subst heq
    rw [List.get?_append_right (le_refl _)] at hj
    simp at hj
    subst hj
    exact h0
  · rw [List.get?_eq_none.mpr (by simp; omega)] at hj
    cases hj

theorem SafeInv_of_eq (w w' : World) (hI : SafeInv w) (hn : w'.nodes = w.nodes)
    (hb : w'.bufs.length = w.bufs.length) : SafeInv w' := by
  intro j n hj
  rw [hn] at hj
  rcases hI j n hj with ⟨bi, h1, h2⟩ | h1
  · exact Or.inl ⟨bi, h1, by omega⟩
  · exact Or.inr h1

/-- Handle keeps the node arena and the buffer arena length. -/
theorem Handle_frame (fail : Sink → SRecord → Option Nat) (w : World) (i : Nat)
    (r : SRecord) :
    (Handle fail w i r).1.nodes = w.nodes
    ∧ (Handle fail w i r).1.bufs.length = w.bufs.length := by
  unfold Handle
  cases hn : w.nodes[i]? with
  | none => simp [hn]
  | some n =>
    cases hg : getReal w i with
    | some s => simp [hn, hg]
    | none =>
      cases hb : n.buf with
      | none => simp [hn, hg, hb]
      | some bi =>
        cases hB : w.bufs[bi]? with
        | none => simp [hn, hg, hb, hB]
        | some B => simp [hn, hg, hb, hB]

/-- Discard keeps the node arena and the buffer arena length. -/
theorem Discard_frame (w : World) (i : Nat) :
    (Discard w i).nodes = w.nodes ∧ (Discard w i).bufs.length = w.bufs.length := by
  unfold Discard
  cases hn : w.nodes[i]? with
  | none => simp [hn]
  | some n =>
    cases hb : n.buf with
    | none => simp [hn, hb]
    | some bi =>
      cases hB : w.bufs[bi]? with
      | none => simp [hn, hb, hB]
      | some B => simp [hn, hb, hB]

theorem SafeInv_withAttrs (w : World) (i : Nat) (as : List Attr)
    (hI : SafeInv w) : SafeInv (WithAttrs w i as).1 := by
  cases hn : w.nodes.get? i with
  | none =>
    have heq : WithAttrs w i as = (w, i) := by
      unfold WithAttrs
      rw [hn]
    rw [heq]
    exact hI
  | some n =>
    cases hg : getReal w i with
    | some s =>
      have heq : WithAttrs w i as
          = (⟨w.nodes ++ [⟨0, some (s ++ [SinkOp.attrs as]), none, [], [], none⟩],
              w.bufs, w.out⟩, w.nodes.length) := by
        unfold WithAttrs
        rw [hn, hg]
      rw [heq]
      exact SafeInv_append w hI
        ⟨w.nodes ++ [⟨0, some (s ++ [SinkOp.attrs as]), none, [], [], none⟩],
          w.bufs, w.out⟩
        ⟨0, some (s ++ [SinkOp.attrs as]), none, [], [], none⟩ rfl (le_refl _)
        (Or.inr (by simp))
    | none =>
      have hr : n.real = none := real_none_of_getReal_none w i n hn hg
      have heq : WithAttrs w i as
          = (⟨w.nodes ++ [⟨n.level, n.real, n.buf, n.attrs ++ as, n.groups, some i⟩],
              w.bufs, w.out⟩, w.nodes.length) := by
        unfold WithAttrs
        rw [hn, hg]
      rw [heq]
      have h0 : (∃ bi,
            (⟨n.level, n.real, n.buf, n.attrs ++ as, n.groups, some i⟩ : Node).buf
              = some bi ∧ bi < w.bufs.length)
          ∨ (⟨n.level, n.real, n.buf, n.attrs ++ as, n.groups, some i⟩ : Node).real
              ≠ none := by
        rcases hI i n hn with ⟨bi, h1, h2⟩ | h1
        · exact Or.inl ⟨bi, h1, h2⟩
        · exact absurd hr h1
      exact SafeInv_append w hI _ _ rfl (le_refl _) h0

theorem SafeInv_withGroup (w : World) (i : Nat) (g : String)
    (hI : SafeInv w) : SafeInv (WithGroup w i g).1 := by
  by_cases hname : g.length = 0
  · have heq : WithGroup w i g = (w, i) := by
      unfold WithGroup
      rw [if_pos hname]
    rw [heq]
    exact hI
  · cases hn : w.nodes.get? i with
    | none =>
      have heq : WithGroup w i g = (w, i) := by
        unfold WithGroup
        rw [if_neg hname, hn]
      rw [heq]
      exact hI
    | some n =>
      cases hg : getReal w i with
      | some s =>
        have heq : WithGroup w i g
            = (⟨w.nodes ++ [⟨0, some (s ++ [SinkOp.group g]), none, [], [], none⟩],
                w.bufs, w.out⟩, w.nodes.length) := by
          unfold WithGroup
          rw [if_neg hname, hn, hg]
        rw [heq]
        exact SafeInv_append w hI
          ⟨w.nodes ++ [⟨0, some (s ++ [SinkOp.group g]), none, [], [], none⟩],
            w.bufs, w.out⟩
          ⟨0, some (s ++ [SinkOp.group g]), none, [], [], none⟩ rfl (le_refl _)
          (Or.inr (by simp))
      | none =>
        have hr : n.real = none := real_none_of_getReal_none w i n hn hg
        have heq : WithGroup w i g
            = (⟨w.nodes ++ [⟨n.level, n.real, n.buf, n.attrs, n.groups ++ [g], some i⟩],
                w.bufs, w.out⟩, w.nodes.length) := by
          unfold WithGroup
          rw [if_neg hname, hn, hg]
        rw [heq]
        have h0 : (∃ bi,
              (⟨n.level, n.real, n.buf, n.attrs, n.groups ++ [g], some i⟩ : Node).buf
                = some bi ∧ bi < w.bufs.length)
            ∨ (⟨n.level, n.real, n.buf, n.attrs, n.groups ++ [g], some i⟩ : Node).real
                ≠ none := by
          rcases hI i n hn with ⟨bi, h1, h2⟩ | h1
          · exact Or.inl ⟨bi, h1, h2⟩
          · exact absurd hr h1
        exact SafeInv_append w hI _ _ rfl (le_refl _) h0

theorem SafeInv_setReal (fail : Sink → SRecord → Option Nat) (w : World)
    (i : Nat) (s : Sink) (hI : SafeInv w) :
    SafeInv (SetRealHandler fail w i s).1 := by
  cases hn : w.nodes.get? i with
  | none =>
    have heq : SetRealHandler fail w i s = (w, []) := by
      unfold SetRealHandler
      rw [hn]
    rw [heq]
    exact hI
  | some n =>
    have hnodes : (SetRealHandler fail w i s).1.nodes
        = w.nodes.set i { n with real := some s } := by
      unfold SetRealHandler
      rw [hn]
    have hblen : (SetRealHandler fail w i s).1.bufs.length = w.bufs.length := by
      unfold SetRealHandler
      rw [hn]
      cases hb : n.buf with
      | none => simp [hb]
      | some bi =>
        cases hB : w.bufs[bi]? with
        | none => simp [hb, hB]
        | some B => simp [hb, hB]
    intro j m hj
    rw [hnodes] at hj
    rcases eq_or_ne j i with rfl | hne
    · have hi : j < w.nodes.length := (List.get?_eq_some.mp hn).1
      rw [List.get?_eq_getElem?, List.getElem?_set_self (by simpa using hi)] at hj
      simp at hj
      subst hj
      exact Or.inr (by simp)
    · rw [List.get?_eq_getElem?, List.getElem?_set_ne (fun he => hne he.symm),
        ← List.get?_eq_getElem?] at hj
      rcases hI j m hj with ⟨bi, h1, h2⟩ | h1
      · exact Or.inl ⟨bi, h1, by omega⟩
      · exact Or.inr h1

theorem SafeInv_step (fail : Sink → SRecord → Option Nat)
    (senabled : Sink → Int → Bool) (w : World) (hI : SafeInv w) (op : Op) :
    SafeInv (stepOp fail senabled w op) := by
  cases op with
  | newBound lv m =>
    exact SafeInv_append w hI
      ⟨w.nodes ++ [⟨lv, none, some w.bufs.length, [], [], none⟩],
        w.bufs ++ [newBuffer BufRecord m], w.out⟩
      ⟨lv, none, some w.bufs.length, [], [], none⟩ rfl (by simp)
      (Or.inl ⟨w.bufs.length, rfl, by simp⟩)
  | newUnbound lv =>
    exact SafeInv_append w hI
      ⟨w.nodes ++ [⟨lv, none, some w.bufs.length, [], [], none⟩],
        w.bufs ++ [newBuffer BufRecord 0], w.out⟩
      ⟨lv, none, some w.bufs.length, [], [], none⟩ rfl (by simp)
      (Or.inl ⟨w.bufs.length, rfl, by simp⟩)
  | withAttrs i as => exact SafeInv_withAttrs w i as hI
  | withGroup i g => exact SafeInv_withGroup w i g hI
  | handle i r =>
    exact SafeInv_of_eq w _ hI (Handle_frame fail w i r).1 (Handle_frame fail w i r).2
  | logRecord i r =>
    show SafeInv (LogRecord fail senabled w i r).1
    unfold LogRecord
    split
    · exact SafeInv_of_eq w _ hI (Handle_frame fail w i r).1 (Handle_frame fail w i r).2
    · exact hI
  | setReal i s => exact SafeInv_setReal fail w i s hI
  | discard i =>
    exact SafeInv_of_eq w _ hI (Discard_frame w i).1 (Discard_frame w i).2

theorem SafeInv_run (fail : Sink → SRecord → Option Nat)
    (senabled : Sink → Int → Bool) (ops : List Op) :
    SafeInv (run fail senabled ops) := by
  have hgen : ∀ (l : List Op) (w : World), SafeInv w →
      SafeInv (l.foldl (stepOp fail senabled) w) := by
    intro l
    induction l with
    | nil => intro w hI; exact hI
    | cons op l ih =>
      intro w hI
      exact ih _ (SafeInv_step fail senabled w hI op)
  apply hgen
  intro i n hn
  cases hn

/-- C10.  In every world reachable through the public API, every handler
node either holds a (valid) shared buffer or resolves a real sink; hence
Handle never dereferences a nil buffer (never panics), and in buffering
state it always returns nil. -/
theorem C10_reachable_no_nil_deref (fail : Sink → SRecord → Option Nat)
    (senabled : Sink → Int → Bool) (ops : List Op) (i : Nat) (n : Node)
    (r : SRecord)
    (hn : (run fail senabled ops).nodes.get? i = some n) :
    ((∃ bi, n.buf = some bi ∧ bi < (run fail senabled ops).bufs.length)
        ∨ getReal (run fail senabled ops) i ≠ none)
    ∧ (Handle fail (run fail senabled ops) i r).2 ≠ .nilPanic
    ∧ (getReal (run fail senabled ops) i = none →
        (Handle fail (run fail senabled ops) i r).2 = .ok none) := by
  have hI := SafeInv_run fail senabled ops
  have hcase := hI i n hn
  have hbuffering : getReal (run fail senabled ops) i = none →
      (Handle fail (run fail senabled ops) i r).2 = .ok none := by
    intro hg
    have hr : n.real = none := real_none_of_getReal_none _ i n hn hg
    rcases hcase with ⟨bi, h1, h2⟩ | h1
    · obtain ⟨B, hB⟩ : ∃ B, (run fail senabled ops).bufs.get? bi = some B := by
        rw [List.get?_eq_getElem?]
        exact ⟨_, List.getElem?_eq_getElem h2⟩
      unfold Handle
      rw [hn, hg]
      simp only [h1, hB]
    · exact absurd hr h1
  refine ⟨?_, ?_, hbuffering⟩
  · rcases hcase with ⟨bi, h1, h2⟩ | h1
    · exact Or.inl ⟨bi, h1, h2⟩
    · right
      cases hs : n.real with
      | none => exact absurd hs h1
      | some s =>
        rw [getReal_of_real_some _ i n s hn hs]
        simp
  · cases hg : getReal (run fail senabled ops) i with
    | none =>
      rw [hbuffering hg]
      simp
    | some s =>
      unfold Handle
      rw [hn, hg]
      simp

/-- Witness for C10: a concrete trace (bound constructor, one derivation,
one log) whose derived node satisfies the claim. -/
theorem C10_reachable_no_nil_deref_witness :
    (Handle (fun _ _ => none)
        (run (fun _ _ => none) (fun _ _ => true)
          [Op.newBound 0 3, Op.withAttrs 0 [("k", "v")], Op.logRecord 1 ⟨5, "m"⟩])
        1 ⟨5, "m"⟩).2 = HandleResult.ok none := by
  have h := C10_reachable_no_nil_deref (fun _ _ => none) (fun _ _ => true)
    [Op.newBound 0 3, Op.withAttrs 0 [("k", "v")], Op.logRecord 1 ⟨5, "m"⟩]
    1 ⟨0, none, some 0, [("k", "v")], [], some 0⟩ ⟨5, "m"⟩ (by decide)
  exact h.2.2 (by decide)

end Slogbuffer
